import Mathlib

/-!
Shallow embedding of the structural execution engines of nnb/nn_model.py:
the tree composition engine (RecursiveNeuralNetwork) and the sequence
recurrence engine (RecurrentNeuralNetwork), together with the
parameter-initialization paths of both engines and of the default cells
(PerceptronLayer, SimpleRecurrence).

Tensors flowing through an engine invocation are modelled by an abstract
value type; a buffer holding one value per tree node or per time step is a
list of such values.  The theano substrate operations used by the source
are modelled as follows:

* T.alloc(0., n, ...) is a list of n copies of a designated zero value;
* T.set_subtensor(p[index], o) is List.set;
* T.set_subtensor(p[:L], o) with o of length L is o ++ p.drop o.length;
* theano.scan with sequences and outputs_info is a left fold over the
  per-step sequence elements threading the recurrent outputs, collecting
  one output per step; taking h[-1] afterwards keeps the final fold state;
* indexing p[c] is List.getD with the zero value as the (never observed
  in-range) fallback.

Parameter initialization (init_params) happens at python run time, so its
raised exceptions are modelled by Except values; random draws from nnb.rng
are modelled by an uninterpreted function supplied by the caller.
-/

namespace NNB

/-- A tensor handle as produced by theano.shared during init_params: a
vector of scalars, a matrix, or a shared variable wrapping a raw python
list of tensors (which theano would store as one object value). -/
inductive Tensor (α : Type) where
  | vec : List α → Tensor α
  | mat : List (List α) → Tensor α
  | obj : List (Tensor α) → Tensor α


/-- A child Model as seen by an engine during construction: the ordered
list of its trainable parameters (the Model capability contract). -/
structure NNModel (α : Type) where
  params : List (Tensor α)


/-- PerceptronLayer.init_params (nn_model.py lines 77-108): W defaults to
a random (insize, outsize) draw, b defaults to np.zeros(outsize). -/
def PerceptronLayer.init_params (zero : α) (rand : Nat → Nat → Tensor α)
    (insize outsize : Nat) (W b : Option (Tensor α)) : List (Tensor α) :=
  [W.getD (rand insize outsize), b.getD (Tensor.vec (List.replicate outsize zero))]

/-- SimpleRecurrence.init_params (nn_model.py lines 434-467): W defaults
to a random (insize, outsize) draw, b to np.zeros(outsize), W_h to a
random (outsize, outsize) draw. -/
def SimpleRecurrence.init_params (zero : α) (rand : Nat → Nat → Tensor α)
    (insize outsize : Nat) (W b W_h : Option (Tensor α)) : List (Tensor α) :=
  [W.getD (rand insize outsize),
   b.getD (Tensor.vec (List.replicate outsize zero)),
   W_h.getD (rand outsize outsize)]

namespace RecursiveNeuralNetwork

/-- Exceptions that RecursiveNeuralNetwork.init_params can raise.
nameErrorWarnUndefined models line 320: the code calls warning.warn, but
the imported module (line 2) is named warnings, so the name warning is
undefined and the statement raises NameError at run time.
valueErrorMissingOption models the explicit ValueError of lines 326-327. -/
inductive InitError where
  | nameErrorWarnUndefined
  | valueErrorMissingOption


/-- RecursiveNeuralNetwork.init_params (nn_model.py lines 314-332).
Returns the parameter list together with the comp_model held by the
options after initialization.  The default comp_model (lines 328-330) is
a ConcatenationModel (no parameters) chained into a
PerceptronLayer(insize = word_dim * 2, outsize = word_dim), so its
parameter list is exactly that PerceptronLayer parameter list. -/
def init_params (zero : α) (rand : Nat → Nat → Tensor α)
    (comp_model : Option (NNModel α)) (insize : Option Nat) :
    Except InitError (List (Tensor α) × NNModel α) :=
  match comp_model, insize with
  | some _, some _ => .error .nameErrorWarnUndefined
  | some m, none => .ok (m.params, m)
  | none, some word_dim =>
      let default_model : NNModel α :=
        ⟨PerceptronLayer.init_params zero rand (word_dim * 2) word_dim none none⟩
      .ok (default_model.params, default_model)
  | none, none => .error .valueErrorMissingOption

/-- The body of one_step inside RecursiveNeuralNetwork.apply (nn_model.py
lines 343-354): gather each buffer value at the two child ids of the
current row, feed the child model the first-child values of every stream
followed by the second-child values of every stream, and write the model
outputs into slot index of each buffer.  zip truncates to the shorter of
the two lists exactly as the python zip does. -/
def one_step (comp_model : List α → List α) (zero : α)
    (children : List Nat) (index : Nat)
    (bufs : List (List α)) : List (List α) :=
  let inputs1 := bufs.map fun q => q.getD (children.getD 0 0) zero
  let inputs2 := bufs.map fun q => q.getD (children.getD 1 0) zero
  let model_out := comp_model (inputs1 ++ inputs2)
  (bufs.zip model_out).map fun po => po.1.set index po.2

/-- The theano.scan of RecursiveNeuralNetwork.apply (lines 366-377)
together with the extraction of the last iteration values (lines 379-385):
a left fold of one_step over the rows of the tree matrix zipped with
T.arange(start, start + rows.length), keeping the final state.  The fold
renders scan faithfully exactly when each step hands scan one recurrent
output per outputs_info entry, that is when the model output arity is at
least the buffer count, so that the zip inside one_step keeps exactly
one new buffer per old buffer; a model with fewer outputs than buffers
would be rejected by the scan substrate's positional output-count
contract, a regime no theorem below exercises. -/
def scanRows (comp_model : List α → List α) (zero : α)
    (rows : List (List Nat)) (start : Nat) (bufs : List (List α)) : List (List α) :=
  (rows.zip (List.range' start rows.length)).foldl
    (fun ps ci => one_step comp_model zero ci.1 ci.2 ps) bufs

/-- RecursiveNeuralNetwork.apply (nn_model.py lines 337-385).  comp_tree
is the tree matrix (one row of child ids per internal node), x the list
of leaf-value streams.  Each stream o is extended to a buffer of length
o.length + comp_tree.length whose first o.length slots hold o and whose
remaining slots hold the zero fill (lines 356-364), then the scan runs
over the rows with node indices starting at the leading extent of the
first stream (lines 366-377). -/
def apply (comp_model : List α → List α) (zero : α)
    (comp_tree : List (List Nat)) (x : List (List α)) : List (List α) :=
  let bufs := x.map fun o =>
    o ++ (List.replicate (o.length + comp_tree.length) zero).drop o.length
  scanRows comp_model zero comp_tree (x.headD []).length bufs

/-- The malformed-tree condition of the specification: some row i of the
tree matrix references, in one of its two child slots, a node id that is
not strictly below the id leafs_nr + i of the node the row defines. -/
def hasForwardRef (leafs_nr : Nat) (rows : List (List Nat)) : Bool :=
  (List.range rows.length).any fun i =>
    ((rows.getD i []).take 2).any fun c => leafs_nr + i ≤ c

end RecursiveNeuralNetwork

namespace RecurrentNeuralNetwork

/-- Exceptions that RecurrentNeuralNetwork.init_params can raise.
valueErrorMissingModelOrSizes models lines 665-668 (neither a model nor
the insize+outsize pair is available); missingInitialState models the
ValueError of lines 675-677 (a custom model was supplied without h0),
the condition the specification names MissingInitialState. -/
inductive InitError where
  | valueErrorMissingModelOrSizes
  | missingInitialState


/-- The raw value of the h0 option (value_type [np.ndarray, list]): a
single tensor or a python list of tensors. -/
inductive H0Value (α : Type) where
  | arr : Tensor α → H0Value α
  | list : List (Tensor α) → H0Value α


/-- The model held by the options after init_params: either the caller
supplied model, or the default SimpleRecurrence(insize, outsize) built on
line 672 with its parameter list. -/
inductive StoredModel (α : Type) where
  | given : NNModel α → StoredModel α
  | simpleRecurrence : Nat → Nat → List (Tensor α) → StoredModel α


/-- The parameter list of the stored model (model.params on line 693). -/
def StoredModel.params : StoredModel α → List (Tensor α)
  | .given m => m.params
  | .simpleRecurrence _ _ ps => ps

/-- RecurrentNeuralNetwork.init_params (nn_model.py lines 658-693).
With no model: both sizes are required, h0 defaults to
np.zeros(outsize), and whatever h0 value is present is wrapped as one
shared variable (line 671) before the default SimpleRecurrence is built.
With a model: h0 is required; a non-list h0 is wrapped as a one-element
list (lines 678-679), a list h0 becomes one shared variable per element
(lines 681-690).  The returned parameter list is h0 + model.params
(line 693); the stored model is returned alongside it. -/
def init_params (zero : α) (rand : Nat → Nat → Tensor α)
    (model : Option (NNModel α)) (h0 : Option (H0Value α))
    (insize outsize : Option Nat) :
    Except InitError (List (Tensor α) × StoredModel α) :=
  match model with
  | none =>
      match insize, outsize with
      | some i, some o =>
          let h0v : Tensor α :=
            match h0 with
            | none => Tensor.vec (List.replicate o zero)
            | some (.arr t) => t
            | some (.list ts) => Tensor.obj ts
          let m : StoredModel α :=
            .simpleRecurrence i o (SimpleRecurrence.init_params zero rand i o none none none)
          .ok ([h0v] ++ m.params, m)
      | _, _ => .error .valueErrorMissingModelOrSizes
  | some m =>
      match h0 with
      | none => .error .missingInitialState
      | some (.arr t) => .ok ([t] ++ m.params, .given m)
      | some (.list ts) => .ok (ts ++ m.params, .given m)

/-- The theano.scan of RecurrentNeuralNetwork.apply (lines 703-710): at
each step the child model receives the per-step elements of every input
sequence followed by the carried states; the model outputs become the new
carried states and are collected, one state list per step. -/
def scan_steps (model : List α → List α)
    (step_inputs : List (List α)) (h : List α) : List (List α) :=
  match step_inputs with
  | [] => []
  | inp :: rest =>
      let out := model (inp ++ h)
      out :: scan_steps model rest out

/-- RecurrentNeuralNetwork.apply (nn_model.py lines 698-715).  h0 is the
initial-state slice of the engine parameters (line 701), inputs the list
of per-step input sequences fed to theano.scan as sequences.  theano.scan
runs for the minimum sequence length many steps; its per-stream output
histories (one per entry of outputs_info, each of length n_steps) are the
h returned on line 715, normalized to a list.  d is the never observed
in-range fallback of positional indexing. -/
def apply (model : List α → List α) (d : α)
    (h0 : List α) (inputs : List (List α)) : List (List α) :=
  let n_steps := (inputs.map List.length).foldr Nat.min (inputs.headD []).length
  let seqs := (List.range n_steps).map fun t => inputs.map fun q => q.getD t d
  let h := scan_steps model seqs h0
  (List.range h0.length).map fun j => h.map fun st => st.getD j d

end RecurrentNeuralNetwork

variable {α β : Type}

/-- Positional read with an in-range index ignores the fallback. -/
theorem getD_pos {l : List β} {i : Nat} (h : i < l.length) (d : β) : l.getD i d = l[i] := by
  simp [List.getD_eq_getElem?_getD, List.getElem?_eq_getElem h]

/-- Positional read past the end returns the fallback. -/
theorem getD_default {l : List β} {i : Nat} (h : l.length ≤ i) (d : β) : l.getD i d = d := by
  simp [List.getD_eq_getElem?_getD, List.getElem?_eq_none h]

/-- Reading the slot just written by an in-range set yields the new value. -/
theorem getD_set_self {l : List β} {i : Nat} (h : i < l.length) (v d : β) :
    (l.set i v).getD i d = v := by
  simp [List.getD_eq_getElem?_getD, List.getElem?_set_eq_of_lt v h]

/-- Writing one slot leaves every other positional read unchanged. -/
theorem getD_set_ne {l : List β} {i j : Nat} (h : i ≠ j) (v d : β) :
    (l.set i v).getD j d = l.getD j d := by
  simp [List.getD_eq_getElem?_getD, List.getElem?_set_ne h]

/-- Positional reads inside the left part of an append stay in it. -/
theorem getD_append_left {l1 l2 : List β} {p : Nat} (h : p < l1.length) (d : β) :
    (l1 ++ l2).getD p d = l1.getD p d := by
  simp [List.getD_eq_getElem?_getD, List.getElem?_append_left h]

/-- A list is recovered by reading all its positions in order. -/
theorem map_range_getD (l : List β) (d : β) :
    (List.range l.length).map (fun j => l.getD j d) = l := by
  apply List.ext_getElem (by simp)
  intro i h1 h2
  simp only [List.getElem_map, List.getElem_range]
  exact getD_pos h2 d

namespace RecursiveNeuralNetwork

/-- Unfolding: the scan over no rows returns the buffers unchanged. -/
theorem scanRows_nil (comp_model : List α → List α) (zero : α) (s : Nat)
    (bufs : List (List α)) : scanRows comp_model zero [] s bufs = bufs := rfl

/-- Unfolding: the scan over a first row runs one_step at the current
index and continues with the next index. -/
theorem scanRows_cons (comp_model : List α → List α) (zero : α) (r : List Nat)
    (rest : List (List Nat)) (s : Nat) (bufs : List (List α)) :
    scanRows comp_model zero (r :: rest) s bufs =
      scanRows comp_model zero rest (s + 1) (one_step comp_model zero r s bufs) := by
  simp only [scanRows, List.length_cons, List.range'_succ, List.zip_cons_cons, List.foldl_cons]

/-- one_step returns as many buffers as the zip of the old buffers with
the model outputs keeps. -/
theorem one_step_length (comp_model : List α → List α) (zero : α) (children : List Nat)
    (index : Nat) (bufs : List (List α)) :
    (one_step comp_model zero children index bufs).length =
      min bufs.length
        (comp_model ((bufs.map fun q => q.getD (children.getD 0 0) zero) ++
          (bufs.map fun q => q.getD (children.getD 1 0) zero))).length := by
  simp [one_step]

/-- When the model returns at least as many outputs as there are buffers,
buffer i after one_step is buffer i with the slot at index set to model
output i. -/
theorem one_step_getD (comp_model : List α → List α) (zero : α) (children : List Nat)
    (index : Nat) (bufs : List (List α)) (i : Nat) (hi : i < bufs.length)
    (hlen : bufs.length ≤ (comp_model
      ((bufs.map fun q => q.getD (children.getD 0 0) zero) ++
       (bufs.map fun q => q.getD (children.getD 1 0) zero))).length) :
    (one_step comp_model zero children index bufs).getD i [] =
      (bufs.getD i []).set index
        ((comp_model ((bufs.map fun q => q.getD (children.getD 0 0) zero) ++
          (bufs.map fun q => q.getD (children.getD 1 0) zero))).getD i zero) := by
  have hzl : i < ((bufs.zip (comp_model
      ((bufs.map fun q => q.getD (children.getD 0 0) zero) ++
       (bufs.map fun q => q.getD (children.getD 1 0) zero)))).map
        fun po => po.1.set index po.2).length := by
    simp only [List.length_map, List.length_zip]
    omega
  show ((bufs.zip (comp_model _)).map fun po => po.1.set index po.2).getD i [] = _
  rw [getD_pos hzl []]
  rw [List.getElem_map]
  rw [List.getElem_zip]
  rw [getD_pos hi, getD_pos (Nat.lt_of_lt_of_le hi hlen)]

/-- The number of buffers produced by scanRows: unchanged when there are
no rows, otherwise clipped by the model output arity once. -/
theorem scanRows_length (comp_model : List α → List α) (zero : α) (n : Nat)
    (hout : ∀ args, (comp_model args).length = n) (rows : List (List Nat)) :
    ∀ (s : Nat) (bufs : List (List α)),
      (scanRows comp_model zero rows s bufs).length =
        if rows.isEmpty then bufs.length else min bufs.length n := by
  induction rows with
  | nil => intro s bufs; simp [scanRows_nil]
  | cons r rest ih =>
      intro s bufs
      rw [scanRows_cons, ih]
      have h1 : (one_step comp_model zero r s bufs).length = min bufs.length n := by
        rw [one_step_length, hout]
      cases rest with
      | nil => simp [h1]
      | cons a b => simp [h1]

/-- With a model of output arity at least the buffer count, one_step
preserves the length of every individual buffer. -/
theorem one_step_getD_length (comp_model : List α → List α) (zero : α) (n : Nat)
    (hout : ∀ args, (comp_model args).length = n) (children : List Nat) (index : Nat)
    (bufs : List (List α)) (hk : bufs.length ≤ n) (i : Nat) :
    ((one_step comp_model zero children index bufs).getD i []).length =
      (bufs.getD i []).length := by
  rcases Nat.lt_or_ge i bufs.length with hi | hi
  · rw [one_step_getD comp_model zero children index bufs i hi (by rw [hout]; exact hk)]
    exact List.length_set _ _ _
  · have h1 : (one_step comp_model zero children index bufs).length ≤ i := by
      rw [one_step_length, hout]; omega
    rw [getD_default h1, getD_default hi]

/-- With a model of output arity at least the buffer count, one_step
leaves every slot other than the written index unchanged. -/
theorem one_step_getD_ne (comp_model : List α → List α) (zero : α) (n : Nat)
    (hout : ∀ args, (comp_model args).length = n) (children : List Nat) (index : Nat)
    (bufs : List (List α)) (hk : bufs.length ≤ n) (i p : Nat) (hp : index ≠ p) (d : α) :
    ((one_step comp_model zero children index bufs).getD i []).getD p d =
      (bufs.getD i []).getD p d := by
  rcases Nat.lt_or_ge i bufs.length with hi | hi
  · rw [one_step_getD comp_model zero children index bufs i hi (by rw [hout]; exact hk)]
    exact getD_set_ne hp _ d
  · have h1 : (one_step comp_model zero children index bufs).length ≤ i := by
      rw [one_step_length, hout]; omega
    rw [getD_default h1, getD_default hi]

/-- Buffer lengths are invariant under the whole scan. -/
theorem scanRows_getD_length (comp_model : List α → List α) (zero : α) (n : Nat)
    (hout : ∀ args, (comp_model args).length = n) (rows : List (List Nat)) :
    ∀ (s : Nat) (bufs : List (List α)), bufs.length ≤ n → ∀ i,
      ((scanRows comp_model zero rows s bufs).getD i []).length =
        (bufs.getD i []).length := by
  induction rows with
  | nil => intro s bufs _ i; rw [scanRows_nil]
  | cons r rest ih =>
      intro s bufs hk i
      rw [scanRows_cons, ih (s + 1) _ (by rw [one_step_length, hout]; omega) i]
      exact one_step_getD_length comp_model zero n hout r s bufs hk i

/-- Slots strictly below the next write index are never touched by the
remaining scan steps: the scan starting at index s writes only at
indices s, s+1, and so on. -/
theorem scanRows_getD_lt (comp_model : List α → List α) (zero : α) (n : Nat)
    (hout : ∀ args, (comp_model args).length = n) (rows : List (List Nat)) :
    ∀ (s : Nat) (bufs : List (List α)), bufs.length ≤ n → ∀ p, p < s → ∀ i (d : α),
      ((scanRows comp_model zero rows s bufs).getD i []).getD p d =
        (bufs.getD i []).getD p d := by
  induction rows with
  | nil => intro s bufs _ p _ i d; rw [scanRows_nil]
  | cons r rest ih =>
      intro s bufs hk p hp i d
      rw [scanRows_cons,
        ih (s + 1) _ (by rw [one_step_length, hout]; omega) p (by omega) i d]
      exact one_step_getD_ne comp_model zero n hout r s bufs hk i p (by omega) d

/-- Reading a fixed slot strictly below the next write index across all
buffers gives the same values before and after the remaining scan. -/
theorem scanRows_map_getD (comp_model : List α → List α) (zero : α) (n : Nat)
    (hout : ∀ args, (comp_model args).length = n) (rows : List (List Nat))
    (s : Nat) (bufs : List (List α)) (hk : bufs.length = n) (c : Nat) (hc : c < s) (d : α) :
    (scanRows comp_model zero rows s bufs).map (fun q => q.getD c d) =
      bufs.map (fun q => q.getD c d) := by
  have hlen : (scanRows comp_model zero rows s bufs).length = bufs.length := by
    rw [scanRows_length comp_model zero n hout rows s bufs]
    cases rows with
    | nil => simp
    | cons a b => simp; omega
  apply List.ext_getElem (by simp [hlen])
  intro i h1 h2
  simp only [List.getElem_map]
  have hb1 : i < (scanRows comp_model zero rows s bufs).length := by
    simp only [List.length_map] at h1; exact h1
  have hb2 : i < bufs.length := by
    simp only [List.length_map] at h2; exact h2
  calc (scanRows comp_model zero rows s bufs)[i].getD c d
      = ((scanRows comp_model zero rows s bufs).getD i []).getD c d := by
        rw [@getD_pos _ (scanRows comp_model zero rows s bufs) i hb1 []]
    _ = (bufs.getD i []).getD c d :=
        scanRows_getD_lt comp_model zero n hout rows s bufs (Nat.le_of_eq hk) c hc i d
    _ = bufs[i].getD c d := by rw [@getD_pos _ bufs i hb2 []]

/-- Reading a slot other than the written index across all buffers gives
the same values before and after one_step. -/
theorem one_step_map_getD (comp_model : List α → List α) (zero : α) (n : Nat)
    (hout : ∀ args, (comp_model args).length = n) (children : List Nat) (index : Nat)
    (bufs : List (List α)) (hk : bufs.length ≤ n) (c : Nat) (hc : index ≠ c) (d : α) :
    (one_step comp_model zero children index bufs).map (fun q => q.getD c d) =
      bufs.map (fun q => q.getD c d) := by
  have hlen : (one_step comp_model zero children index bufs).length = bufs.length := by
    rw [one_step_length, hout]; omega
  apply List.ext_getElem (by simp [hlen])
  intro i h1 h2
  simp only [List.getElem_map]
  have hb1 : i < (one_step comp_model zero children index bufs).length := by
    simp only [List.length_map] at h1; exact h1
  have hb2 : i < bufs.length := by
    simp only [List.length_map] at h2; exact h2
  calc (one_step comp_model zero children index bufs)[i].getD c d
      = ((one_step comp_model zero children index bufs).getD i []).getD c d := by
        rw [@getD_pos _ (one_step comp_model zero children index bufs) i hb1 []]
    _ = (bufs.getD i []).getD c d :=
        one_step_getD_ne comp_model zero n hout children index bufs hk i c hc d
    _ = bufs[i].getD c d := by rw [@getD_pos _ bufs i hb2 []]

/-- The fundamental recurrence of the tree scan: under the
children-precede-parent invariant, the value the finished scan holds at
write slot s + j of every buffer is the model output for the values the
finished scan holds at the two child ids of row j.  The invariant makes
the child slots stable from the moment row j is evaluated, so reading
them from the finished buffers equals reading them at evaluation time. -/
theorem scanRows_spec (comp_model : List α → List α) (zero : α) (k N : Nat)
    (hout : ∀ args, (comp_model args).length = k) (rows : List (List Nat)) :
    ∀ (s : Nat) (bufs : List (List α)),
      bufs.length = k →
      (∀ i, i < k → (bufs.getD i []).length = N) →
      s + rows.length ≤ N →
      (∀ j, j < rows.length →
        (rows.getD j []).getD 0 0 < s + j ∧ (rows.getD j []).getD 1 0 < s + j) →
      ∀ j, j < rows.length → ∀ i, i < k → ∀ d : α,
        ((scanRows comp_model zero rows s bufs).getD i []).getD (s + j) d =
          (comp_model
            (((scanRows comp_model zero rows s bufs).map fun q =>
                q.getD ((rows.getD j []).getD 0 0) zero) ++
             ((scanRows comp_model zero rows s bufs).map fun q =>
                q.getD ((rows.getD j []).getD 1 0) zero))).getD i d := by
  induction rows with
  | nil =>
      intro s bufs _ _ _ _ j hj
      exact absurd hj (by simp)
  | cons r rest ih =>
      intro s bufs hk hN hle hvalid j hj i hi d
      have hkb : bufs.length ≤ k := Nat.le_of_eq hk
      have hkb1 : (one_step comp_model zero r s bufs).length = k := by
        rw [one_step_length, hout]; omega
      have hN1 : ∀ i, i < k →
          ((one_step comp_model zero r s bufs).getD i []).length = N := by
        intro i hi
        rw [one_step_getD_length comp_model zero k hout r s bufs hkb i]
        exact hN i hi
      rw [scanRows_cons]
      cases j with
      | zero =>
          simp only [List.getD_cons_zero, Nat.add_zero] at *
          have hc0 : r.getD 0 0 < s := (hvalid 0 (by omega)).1
          have hc1 : r.getD 1 0 < s := (hvalid 0 (by omega)).2
          rw [scanRows_map_getD comp_model zero k hout rest (s + 1)
                (one_step comp_model zero r s bufs) hkb1 (r.getD 0 0) (by omega) zero,
              scanRows_map_getD comp_model zero k hout rest (s + 1)
                (one_step comp_model zero r s bufs) hkb1 (r.getD 1 0) (by omega) zero,
              one_step_map_getD comp_model zero k hout r s bufs hkb (r.getD 0 0)
                (by omega) zero,
              one_step_map_getD comp_model zero k hout r s bufs hkb (r.getD 1 0)
                (by omega) zero,
              scanRows_getD_lt comp_model zero k hout rest (s + 1)
                (one_step comp_model zero r s bufs) (Nat.le_of_eq hkb1) s (by omega) i d,
              one_step_getD comp_model zero r s bufs i (by omega) (by rw [hout]; omega),
              getD_set_self (by rw [hN i hi]; omega)]
          rw [@getD_pos _ (comp_model ((bufs.map fun q => q.getD (r.getD 0 0) zero) ++
                (bufs.map fun q => q.getD (r.getD 1 0) zero))) i (by rw [hout]; omega) zero,
              @getD_pos _ (comp_model ((bufs.map fun q => q.getD (r.getD 0 0) zero) ++
                (bufs.map fun q => q.getD (r.getD 1 0) zero))) i (by rw [hout]; omega) d]
      | succ j0 =>
          have hvalid1 : ∀ j, j < rest.length →
              (rest.getD j []).getD 0 0 < (s + 1) + j ∧
              (rest.getD j []).getD 1 0 < (s + 1) + j := by
            intro j hjr
            have := hvalid (j + 1) (by simpa using Nat.succ_lt_succ hjr)
            simp only [List.getD_cons_succ] at this
            constructor
            · have h1 := this.1; omega
            · have h1 := this.2; omega
          have hj0 : j0 < rest.length := by simpa using Nat.lt_of_succ_lt_succ hj
          have hmain := ih (s + 1) (one_step comp_model zero r s bufs) hkb1 hN1
            (by simp only [List.length_cons] at hle; omega) hvalid1 j0 hj0 i hi d
          have hidx : s + (j0 + 1) = (s + 1) + j0 := by omega
          rw [hidx]
          simpa only [List.getD_cons_succ] using hmain

/-- With equal-length leaf streams, the leading extent taken from the
first stream is that common length. -/
theorem headD_length {x : List (List α)} {L : Nat} (hx : x ≠ [])
    (hL : ∀ o ∈ x, o.length = L) : (x.headD []).length = L := by
  cases x with
  | nil => exact absurd rfl hx
  | cons a t => exact hL a (List.mem_cons_self a t)

/-- The freshly allocated buffer of a stream: the stream followed by the
zero fill for the internal-node slots. -/
theorem init_buf_getD {x : List (List α)} {zero : α} {n : Nat} {i : Nat}
    (hi : i < x.length) :
    ((x.map fun o =>
        o ++ (List.replicate (o.length + n) zero).drop o.length).getD i []) =
      x.getD i [] ++ List.replicate n zero := by
  have hm : i < (x.map fun o =>
      o ++ (List.replicate (o.length + n) zero).drop o.length).length := by
    simpa using hi
  rw [@getD_pos _ _ i hm [], List.getElem_map, @getD_pos _ x i hi []]
  rw [List.drop_replicate, Nat.add_sub_cancel_left]

/-- Shape of the tree engine output: with a model of output arity at
least the stream count, the engine returns as many buffers as leaf
streams, each of length leaf count plus row count, with the leaf slots
holding the supplied leaf values unchanged (model outputs beyond the
stream count are discarded by the zip and never reach a buffer). -/
theorem apply_shape (comp_model : List α → List α) (zero : α)
    (comp_tree : List (List Nat)) (x : List (List α)) (L k n : Nat)
    (hk : x.length = k) (hkpos : 0 < k) (hL : ∀ o ∈ x, o.length = L)
    (hout : ∀ args, (comp_model args).length = n) (hkn : k ≤ n) :
    (apply comp_model zero comp_tree x).length = k ∧
    (∀ i, i < k →
      ((apply comp_model zero comp_tree x).getD i []).length = L + comp_tree.length) ∧
    (∀ i, i < k → ∀ p, p < L → ∀ d : α,
      ((apply comp_model zero comp_tree x).getD i []).getD p d =
        (x.getD i []).getD p d) := by
  have hx : x ≠ [] := by intro h; rw [h] at hk; simp at hk; omega
  have hhead : (x.headD []).length = L := headD_length hx hL
  have hblen : (x.map fun o =>
      o ++ (List.replicate (o.length + comp_tree.length) zero).drop o.length).length = k := by
    simpa using hk
  have hmemL : ∀ i, i < k → (x.getD i []).length = L := by
    intro i hi
    have hxi : i < x.length := by omega
    rw [@getD_pos _ x i hxi []]
    exact hL _ (List.getElem_mem hxi)
  have hbN : ∀ i, i < k → (((x.map fun o =>
      o ++ (List.replicate (o.length + comp_tree.length) zero).drop o.length).getD i
        []).length) = L + comp_tree.length := by
    intro i hi
    rw [init_buf_getD (show i < x.length by omega), List.length_append,
      List.length_replicate, hmemL i hi]
  simp only [apply]
  refine ⟨?_, ?_, ?_⟩
  · rw [scanRows_length comp_model zero n hout]
    cases comp_tree with
    | nil => simpa using hk
    | cons a b => simp [hblen]; omega
  · intro i hi
    rw [scanRows_getD_length comp_model zero n hout comp_tree _ _ (by omega) i]
    exact hbN i hi
  · intro i hi p hp d
    rw [hhead, scanRows_getD_lt comp_model zero n hout comp_tree _ _ (by omega) p
        (by omega) i d]
    rw [init_buf_getD (show i < x.length by omega)]
    exact getD_append_left (by rw [hmemL i hi]; exact hp) d

/-- The recurrence satisfied by the finished tree engine output: under
the children-precede-parent invariant, slot L + j of every stream holds
the model output for the concatenation of all first-child values with all
second-child values of row j, read from the finished buffers. -/
theorem apply_spec (comp_model : List α → List α) (zero : α)
    (comp_tree : List (List Nat)) (x : List (List α)) (L k : Nat)
    (hk : x.length = k) (hkpos : 0 < k) (hL : ∀ o ∈ x, o.length = L)
    (hout : ∀ args, (comp_model args).length = k)
    (hvalid : ∀ j, j < comp_tree.length →
      (comp_tree.getD j []).getD 0 0 < L + j ∧ (comp_tree.getD j []).getD 1 0 < L + j) :
    ∀ j, j < comp_tree.length → ∀ i, i < k → ∀ d : α,
      ((apply comp_model zero comp_tree x).getD i []).getD (L + j) d =
        (comp_model
          (((apply comp_model zero comp_tree x).map fun q =>
              q.getD ((comp_tree.getD j []).getD 0 0) zero) ++
           ((apply comp_model zero comp_tree x).map fun q =>
              q.getD ((comp_tree.getD j []).getD 1 0) zero))).getD i d := by
  intro j hj i hi d
  have hx : x ≠ [] := by intro h; rw [h] at hk; simp at hk; omega
  have hhead : (x.headD []).length = L := headD_length hx hL
  have hblen : (x.map fun o =>
      o ++ (List.replicate (o.length + comp_tree.length) zero).drop o.length).length = k := by
    simpa using hk
  have hmemL : ∀ i, i < k → (x.getD i []).length = L := by
    intro i hi
    have hxi : i < x.length := by omega
    rw [@getD_pos _ x i hxi []]
    exact hL _ (List.getElem_mem hxi)
  have hbN : ∀ i, i < k → (((x.map fun o =>
      o ++ (List.replicate (o.length + comp_tree.length) zero).drop o.length).getD i
        []).length) = L + comp_tree.length := by
    intro i hi
    rw [init_buf_getD (show i < x.length by omega), List.length_append,
      List.length_replicate, hmemL i hi]
  simp only [apply]
  rw [hhead]
  exact scanRows_spec comp_model zero k (L + comp_tree.length) hout comp_tree L _ hblen hbN
    (by omega) hvalid j hj i hi d

end RecursiveNeuralNetwork

/-- Folding min over a list whose entries all equal T, starting from T,
gives T: the step count of a scan over equal-length sequences. -/
theorem foldr_min_const (T : Nat) : ∀ (l : List Nat) (a : Nat),
    (∀ v ∈ l, v = T) → a = T → l.foldr Nat.min a = T := by
  intro l
  induction l with
  | nil => intro a _ ha; exact ha
  | cons v t ih =>
      intro a hall ha
      rw [List.foldr_cons, ih a (fun w hw => hall w (List.mem_cons_of_mem v hw)) ha,
        hall v (List.mem_cons_self v t)]
      exact Nat.min_self T

namespace RecurrentNeuralNetwork

/-- The scan emits one state list per step. -/
theorem scan_steps_length (model : List α → List α) :
    ∀ (step_inputs : List (List α)) (h : List α),
      (scan_steps model step_inputs h).length = step_inputs.length := by
  intro step_inputs
  induction step_inputs with
  | nil => intro h; rfl
  | cons inp rest ih => intro h; simp [scan_steps, ih]

/-- Every emitted state list has the model output arity. -/
theorem scan_steps_arity (model : List α → List α) (s : Nat)
    (hout : ∀ args, (model args).length = s) :
    ∀ (step_inputs : List (List α)) (h : List α) (t : Nat), t < step_inputs.length →
      ((scan_steps model step_inputs h).getD t []).length = s := by
  intro step_inputs
  induction step_inputs with
  | nil => intro h t ht; exact absurd ht (by simp)
  | cons inp rest ih =>
      intro h t ht
      cases t with
      | zero =>
          show ((model (inp ++ h) :: scan_steps model rest (model (inp ++ h))).getD 0 []).length = s
          rw [List.getD_cons_zero]
          exact hout _
      | succ t0 =>
          show ((model (inp ++ h) :: scan_steps model rest (model (inp ++ h))).getD (t0 + 1)
            []).length = s
          rw [List.getD_cons_succ]
          exact ih _ t0 (by simpa using Nat.lt_of_succ_lt_succ ht)

/-- The defining recurrence of the scan: the state list emitted at step t
is the model applied to the step-t inputs followed by the state list
emitted at step t-1 (the initial state when t = 0). -/
theorem scan_steps_getD (model : List α → List α) :
    ∀ (step_inputs : List (List α)) (h : List α) (t : Nat), t < step_inputs.length →
      (scan_steps model step_inputs h).getD t [] =
        model ((step_inputs.getD t []) ++
          (if t = 0 then h else (scan_steps model step_inputs h).getD (t - 1) [])) := by
  intro step_inputs
  induction step_inputs with
  | nil => intro h t ht; exact absurd ht (by simp)
  | cons inp rest ih =>
      intro h t ht
      show (model (inp ++ h) :: scan_steps model rest (model (inp ++ h))).getD t [] = _
      cases t with
      | zero => simp [List.getD_cons_zero]
      | succ t0 =>
          have ht0 : t0 < rest.length := by simpa using Nat.lt_of_succ_lt_succ ht
          have hstep : scan_steps model (inp :: rest) h =
              model (inp ++ h) :: scan_steps model rest (model (inp ++ h)) := rfl
          simp only [List.getD_cons_succ, if_neg (Nat.succ_ne_zero t0), Nat.add_sub_cancel,
            hstep]
          rw [ih (model (inp ++ h)) t0 ht0]
          cases t0 with
          | zero => simp
          | succ t1 =>
              simp only [if_neg (Nat.succ_ne_zero t1), List.getD_cons_succ, Nat.add_sub_cancel]

/-- Shape and recurrence of the per-stream histories obtained by reading
stream j out of every emitted state list: there are as many histories as
initial states, each history has one entry per step, and entry t is
output j of the model applied to the step-t inputs followed by the
previous states. -/
theorem hist_spec (model : List α → List α) (d : α) (h0 : List α)
    (seqs : List (List α)) (T s : Nat)
    (hlen : seqs.length = T) (hs : h0.length = s)
    (hout : ∀ args, (model args).length = s) :
    ((List.range h0.length).map fun j =>
        (scan_steps model seqs h0).map fun st => st.getD j d).length = s ∧
    (∀ j, j < s → (((List.range h0.length).map fun j =>
        (scan_steps model seqs h0).map fun st => st.getD j d).getD j []).length = T) ∧
    (∀ j, j < s → ∀ t, t < T →
      (((List.range h0.length).map fun j =>
          (scan_steps model seqs h0).map fun st => st.getD j d).getD j []).getD t d =
        (model ((seqs.getD t []) ++
          (if t = 0 then h0
           else ((List.range h0.length).map fun j =>
              (scan_steps model seqs h0).map fun st => st.getD j d).map fun q =>
                q.getD (t - 1) d))).getD j d) := by
  have hscan_len : (scan_steps model seqs h0).length = T := by
    rw [scan_steps_length]; exact hlen
  have hist_get : ∀ j, j < s →
      ((List.range h0.length).map fun j =>
        (scan_steps model seqs h0).map fun st => st.getD j d).getD j [] =
      (scan_steps model seqs h0).map fun st => st.getD j d := by
    intro j hj
    have hj0 : j < h0.length := by omega
    rw [@getD_pos _ _ j (by simpa using hj0) [], List.getElem_map, List.getElem_range]
  have hstate : ∀ u, u < T →
      ((List.range h0.length).map fun j =>
        (scan_steps model seqs h0).map fun st => st.getD j d).map
          (fun q => q.getD u d) =
      (scan_steps model seqs h0).getD u [] := by
    intro u hu
    have hu1 : u < (scan_steps model seqs h0).length := by omega
    have harr : ((scan_steps model seqs h0).getD u []).length = h0.length := by
      rw [hs]
      exact scan_steps_arity model s hout seqs h0 u (by omega)
    rw [List.map_map]
    have hpt : ∀ j ∈ List.range h0.length,
        (((scan_steps model seqs h0).map fun st => st.getD j d).getD u d) =
        ((scan_steps model seqs h0).getD u []).getD j d := by
      intro j hj
      rw [@getD_pos _ ((scan_steps model seqs h0).map fun st => st.getD j d) u
          (by simpa using hu1) d, List.getElem_map,
        @getD_pos _ (scan_steps model seqs h0) u hu1 []]
    calc (List.range h0.length).map
          ((fun q => q.getD u d) ∘ fun j =>
            (scan_steps model seqs h0).map fun st => st.getD j d)
        = (List.range h0.length).map fun j =>
            ((scan_steps model seqs h0).getD u []).getD j d :=
          List.map_congr_left hpt
      _ = (scan_steps model seqs h0).getD u [] := by
          rw [← harr]
          exact map_range_getD _ d
  refine ⟨by simp [hs], ?_, ?_⟩
  · intro j hj
    rw [hist_get j hj]
    simp [hscan_len]
  · intro j hj t ht
    rw [hist_get j hj,
      @getD_pos _ ((scan_steps model seqs h0).map fun st => st.getD j d) t
        (by simpa using (by omega : t < (scan_steps model seqs h0).length)) d,
      List.getElem_map,
      ← @getD_pos _ (scan_steps model seqs h0) t (by omega) [],
      scan_steps_getD model seqs h0 t (by omega)]
    cases t with
    | zero => rw [if_pos rfl, if_pos rfl]
    | succ t0 =>
        rw [if_neg (Nat.succ_ne_zero t0), if_neg (Nat.succ_ne_zero t0),
          hstate (t0 + 1 - 1) (by omega)]

/-- Shape and recurrence of the sequence recurrence engine output on
equal-length input sequences: one history per initial state, each of
length T, satisfying the step recurrence, with the initial state not
emitted (entry 0 is already a model output). -/
theorem apply_histories (model : List α → List α) (d : α) (h0 : List α)
    (inputs : List (List α)) (T s : Nat)
    (hm : inputs ≠ []) (hT : ∀ q ∈ inputs, q.length = T)
    (hs : h0.length = s) (hout : ∀ args, (model args).length = s) :
    (apply model d h0 inputs).length = s ∧
    (∀ j, j < s → ((apply model d h0 inputs).getD j []).length = T) ∧
    (∀ j, j < s → ∀ t, t < T →
      ((apply model d h0 inputs).getD j []).getD t d =
        (model ((inputs.map fun q => q.getD t d) ++
          (if t = 0 then h0
           else (apply model d h0 inputs).map fun q => q.getD (t - 1) d))).getD j d) := by
  have hN : (inputs.map List.length).foldr Nat.min (inputs.headD []).length = T := by
    refine foldr_min_const T _ _ ?_ ?_
    · intro v hv
      obtain ⟨q, hq, rfl⟩ := List.mem_map.mp hv
      exact hT q hq
    · exact RecursiveNeuralNetwork.headD_length hm hT
  have hseq_len : ((List.range T).map fun t => inputs.map fun q => q.getD t d).length = T := by
    simp
  have hseq_get : ∀ t, t < T →
      ((List.range T).map fun t => inputs.map fun q => q.getD t d).getD t [] =
        inputs.map fun q => q.getD t d := by
    intro t ht
    rw [@getD_pos _ ((List.range T).map fun t => inputs.map fun q => q.getD t d) t
        (by simpa using ht) [], List.getElem_map, List.getElem_range]
  have hmain := hist_spec model d h0
    ((List.range T).map fun t => inputs.map fun q => q.getD t d) T s hseq_len hs hout
  simp only [apply, hN]
  refine ⟨hmain.1, hmain.2.1, ?_⟩
  intro j hj t ht
  rw [hmain.2.2 j hj t ht, hseq_get t ht]

end RecurrentNeuralNetwork

namespace RecursiveNeuralNetwork

/-- C1: for every tree with L leaves and I internal nodes and every set
of k leaf-value streams of length L fed to a child model of output arity
k, RecursiveNeuralNetwork.apply returns k buffers, each of length exactly
L + I, whose first L entries equal the caller-supplied leaf values
unchanged. -/
theorem tree_output_shape_and_leaf_identity
    (comp_model : List α → List α) (zero : α) (comp_tree : List (List Nat))
    (x : List (List α)) (L k : Nat)
    (hk : x.length = k) (hkpos : 0 < k) (hL : ∀ o ∈ x, o.length = L)
    (hout : ∀ args, (comp_model args).length = k) :
    (apply comp_model zero comp_tree x).length = k ∧
    (∀ i, i < k →
      ((apply comp_model zero comp_tree x).getD i []).length = L + comp_tree.length) ∧
    (∀ i, i < k → ∀ p, p < L → ∀ d : α,
      ((apply comp_model zero comp_tree x).getD i []).getD p d =
        (x.getD i []).getD p d) :=
  apply_shape comp_model zero comp_tree x L k k hk hkpos hL hout (Nat.le_refl k)

/-- Witness for C1 at the documented example tree with four leaves,
three internal nodes, one stream, and a summing child model. -/
theorem tree_output_shape_and_leaf_identity_witness :
    (([[1, 2, 3, 4]] : List (List Nat)).length = 1) ∧ (0 < 1) ∧
    (∀ o ∈ ([[1, 2, 3, 4]] : List (List Nat)), o.length = 4) ∧
    (∀ args : List Nat, ((fun l => [l.sum]) args : List Nat).length = 1) ∧
    ((apply (fun l => [l.sum]) 0 [[1, 2], [4, 3], [0, 5]] [[1, 2, 3, 4]]).length = 1 ∧
     (∀ i, i < 1 →
       ((apply (fun l => [l.sum]) 0 [[1, 2], [4, 3], [0, 5]]
          [[1, 2, 3, 4]]).getD i []).length =
         4 + ([[1, 2], [4, 3], [0, 5]] : List (List Nat)).length) ∧
     (∀ i, i < 1 → ∀ p, p < 4 → ∀ d : Nat,
       ((apply (fun l => [l.sum]) 0 [[1, 2], [4, 3], [0, 5]]
          [[1, 2, 3, 4]]).getD i []).getD p d =
         (([[1, 2, 3, 4]] : List (List Nat)).getD i []).getD p d)) :=
  ⟨rfl, by decide, by decide, fun _ => rfl,
   tree_output_shape_and_leaf_identity (fun l => [l.sum]) 0 [[1, 2], [4, 3], [0, 5]]
     [[1, 2, 3, 4]] 4 1 rfl (by decide) (by decide) (fun _ => rfl)⟩

/-- C2: under the children-precede-parent invariant, the finished output
of the tree engine satisfies, at slot L + j of every stream, the
recurrence that defines row-order evaluation: the slot holds the model
output for the concatenation of all streams' first-child values with all
streams' second-child values of row j, where the child values are the
already-computed values of the finished buffers.  In particular each
internal node sees the freshly computed values of its children, never a
stale zero fill. -/
theorem tree_internal_node_recurrence
    (comp_model : List α → List α) (zero : α) (comp_tree : List (List Nat))
    (x : List (List α)) (L k : Nat)
    (hk : x.length = k) (hkpos : 0 < k) (hL : ∀ o ∈ x, o.length = L)
    (hout : ∀ args, (comp_model args).length = k)
    (hvalid : ∀ j, j < comp_tree.length →
      (comp_tree.getD j []).getD 0 0 < L + j ∧ (comp_tree.getD j []).getD 1 0 < L + j) :
    ∀ j, j < comp_tree.length → ∀ i, i < k → ∀ d : α,
      ((apply comp_model zero comp_tree x).getD i []).getD (L + j) d =
        (comp_model
          (((apply comp_model zero comp_tree x).map fun q =>
              q.getD ((comp_tree.getD j []).getD 0 0) zero) ++
           ((apply comp_model zero comp_tree x).map fun q =>
              q.getD ((comp_tree.getD j []).getD 1 0) zero))).getD i d :=
  apply_spec comp_model zero comp_tree x L k hk hkpos hL hout hvalid

/-- Witness for C2 at the documented example (leaf_count 4, tree matrix
rows [1,2], [4,3], [0,5]): in particular node 6 at slot 6 is computed
from the finished value of node 5 at slot 5. -/
theorem tree_internal_node_recurrence_witness :
    (([[1, 2, 3, 4]] : List (List Nat)).length = 1) ∧ (0 < 1) ∧
    (∀ o ∈ ([[1, 2, 3, 4]] : List (List Nat)), o.length = 4) ∧
    (∀ args : List Nat, ((fun l => [l.sum]) args : List Nat).length = 1) ∧
    (∀ j, j < ([[1, 2], [4, 3], [0, 5]] : List (List Nat)).length →
      (([[1, 2], [4, 3], [0, 5]] : List (List Nat)).getD j []).getD 0 0 < 4 + j ∧
      (([[1, 2], [4, 3], [0, 5]] : List (List Nat)).getD j []).getD 1 0 < 4 + j) ∧
    (∀ j, j < ([[1, 2], [4, 3], [0, 5]] : List (List Nat)).length →
      ∀ i, i < 1 → ∀ d : Nat,
      ((apply (fun l => [l.sum]) 0 [[1, 2], [4, 3], [0, 5]]
          [[1, 2, 3, 4]]).getD i []).getD (4 + j) d =
        ((fun l => [l.sum])
          (((apply (fun l => [l.sum]) 0 [[1, 2], [4, 3], [0, 5]]
              [[1, 2, 3, 4]]).map fun q =>
              q.getD ((([[1, 2], [4, 3], [0, 5]] : List (List Nat)).getD j []).getD 0 0) 0) ++
           ((apply (fun l => [l.sum]) 0 [[1, 2], [4, 3], [0, 5]]
              [[1, 2, 3, 4]]).map fun q =>
              q.getD ((([[1, 2], [4, 3], [0, 5]] : List (List Nat)).getD j []).getD 1 0) 0)) :
          List Nat).getD i d) :=
  ⟨rfl, by decide, by decide, fun _ => rfl, by decide,
   tree_internal_node_recurrence (fun l => [l.sum]) 0 [[1, 2], [4, 3], [0, 5]]
     [[1, 2, 3, 4]] 4 1 rfl (by decide) (by decide) (fun _ => rfl) (by decide)⟩

/-- C3 counterexample: the claim says a tree matrix with a row
referencing a child id at or above its own node id makes the engine
raise MalformedTree before any node evaluation and return no buffers.
The code performs no such validation: apply has no exception path at
all.  Here the single row of the matrix (node id 1 for leaf count 1)
references node id 1 itself; the engine returns normally, having read
the stale zero fill of the unwritten slot 1 while computing it
(0 + 5 = 5), instead of raising. -/
theorem tree_forward_ref_no_exception_counterexample :
    hasForwardRef 1 [[1, 0]] = true ∧
    apply (fun l => [l.sum]) 0 [[1, 0]] [[5]] = [[5, 5]] :=
  ⟨by decide, by decide⟩

/-- C3 (amended): for every tree matrix in which some row references a
child id at or above that row's own node id, the tree engine raises
nothing: it evaluates normally (reading the current buffer contents, a
zero fill for any not-yet-written slot) and returns the full k buffers
of length L + I with the leaf slots intact, exactly as on well-formed
trees. -/
theorem tree_forward_ref_still_returns
    (comp_model : List α → List α) (zero : α) (comp_tree : List (List Nat))
    (x : List (List α)) (L k : Nat)
    (_hfw : hasForwardRef L comp_tree = true)
    (hk : x.length = k) (hkpos : 0 < k) (hL : ∀ o ∈ x, o.length = L)
    (hout : ∀ args, (comp_model args).length = k) :
    (apply comp_model zero comp_tree x).length = k ∧
    (∀ i, i < k →
      ((apply comp_model zero comp_tree x).getD i []).length = L + comp_tree.length) ∧
    (∀ i, i < k → ∀ p, p < L → ∀ d : α,
      ((apply comp_model zero comp_tree x).getD i []).getD p d =
        (x.getD i []).getD p d) :=
  apply_shape comp_model zero comp_tree x L k k hk hkpos hL hout (Nat.le_refl k)

/-- Witness for the amended C3 on the malformed one-row self-referencing
tree. -/
theorem tree_forward_ref_still_returns_witness :
    (hasForwardRef 1 [[1, 0]] = true) ∧
    (([[5]] : List (List Nat)).length = 1) ∧ (0 < 1) ∧
    (∀ o ∈ ([[5]] : List (List Nat)), o.length = 1) ∧
    (∀ args : List Nat, ((fun l => [l.sum]) args : List Nat).length = 1) ∧
    ((apply (fun l => [l.sum]) 0 [[1, 0]] [[5]]).length = 1 ∧
     (∀ i, i < 1 →
       ((apply (fun l => [l.sum]) 0 [[1, 0]] [[5]]).getD i []).length =
         1 + ([[1, 0]] : List (List Nat)).length) ∧
     (∀ i, i < 1 → ∀ p, p < 1 → ∀ d : Nat,
       ((apply (fun l => [l.sum]) 0 [[1, 0]] [[5]]).getD i []).getD p d =
         (([[5]] : List (List Nat)).getD i []).getD p d)) :=
  ⟨by decide, rfl, by decide, by decide, fun _ => rfl,
   tree_forward_ref_still_returns (fun l => [l.sum]) 0 [[1, 0]] [[5]] 1 1
     (by decide) rfl (by decide) (by decide) (fun _ => rfl)⟩

/-- C4 counterexample: the claim says supplying a child model whose
declared arity is inconsistent with the engine (the documented example:
a 3-output child on a k = 1 tree engine) raises ArityMismatch before any
node is processed.  The code has no arity check and no such exception
type: with a constant 3-output child on one stream, the python zip of
buffers with model outputs silently drops the two extra outputs and the
engine returns a normal result. -/
theorem tree_arity_mismatch_no_exception_counterexample :
    (∀ args : List Nat, ((fun _ => [1, 2, 3]) args : List Nat).length = 3) ∧
    apply (fun _ => [1, 2, 3]) 0 [[0, 0]] [[7]] = [[7, 1]] :=
  ⟨fun _ => rfl, by decide⟩

/-- C4 (amended): the tree engine performs no arity validation and no
ArityMismatch exception exists in the code.  A child model whose output
arity n exceeds the engine's stream count k does not raise: on each
step the zip of the k buffers with the n model outputs keeps exactly k
entries, silently discarding the extra outputs, and the engine completes
normally, returning the k full buffers of length L + I with the leaf
slots intact.  (A model with fewer outputs than streams is rejected by
the scan substrate's positional output-count contract, not by any check
of the engine.) -/
theorem tree_arity_mismatch_truncates
    (comp_model : List α → List α) (zero : α) (comp_tree : List (List Nat))
    (x : List (List α)) (L k n : Nat)
    (hk : x.length = k) (hkpos : 0 < k) (hL : ∀ o ∈ x, o.length = L)
    (hout : ∀ args, (comp_model args).length = n) (hkn : k ≤ n) :
    (apply comp_model zero comp_tree x).length = k ∧
    (∀ i, i < k →
      ((apply comp_model zero comp_tree x).getD i []).length = L + comp_tree.length) ∧
    (∀ i, i < k → ∀ p, p < L → ∀ d : α,
      ((apply comp_model zero comp_tree x).getD i []).getD p d =
        (x.getD i []).getD p d) :=
  apply_shape comp_model zero comp_tree x L k n hk hkpos hL hout hkn

/-- Witness for the amended C4: the 3-output child on a 1-stream engine
completes normally with exactly one well-formed buffer. -/
theorem tree_arity_mismatch_truncates_witness :
    (([[7]] : List (List Nat)).length = 1) ∧ (0 < 1) ∧
    (∀ o ∈ ([[7]] : List (List Nat)), o.length = 1) ∧
    (∀ args : List Nat, ((fun _ => [1, 2, 3]) args : List Nat).length = 3) ∧
    (1 ≤ 3) ∧
    ((apply (fun _ => [1, 2, 3]) 0 [[0, 0]] [[7]]).length = 1 ∧
     (∀ i, i < 1 →
       ((apply (fun _ => [1, 2, 3]) 0 [[0, 0]] [[7]]).getD i []).length =
         1 + ([[0, 0]] : List (List Nat)).length) ∧
     (∀ i, i < 1 → ∀ p, p < 1 → ∀ d : Nat,
       ((apply (fun _ => [1, 2, 3]) 0 [[0, 0]] [[7]]).getD i []).getD p d =
         (([[7]] : List (List Nat)).getD i []).getD p d)) :=
  ⟨rfl, by decide, by decide, fun _ => rfl, by decide,
   tree_arity_mismatch_truncates (fun _ => [1, 2, 3]) 0 [[0, 0]] [[7]] 1 1 3
     rfl (by decide) (by decide) (fun _ => rfl) (by decide)⟩

/-- C10: constructing the tree engine with both the comp_model and the
insize options set makes init_params raise: the intended warning call on
line 320 references the undefined name warning (the imported module is
named warnings), so the construction fails with a NameError instead of
warning and proceeding with comp_model. -/
theorem tree_both_options_raises (zero : α) (rand : Nat → Nat → Tensor α)
    (m : NNModel α) (w : Nat) :
    init_params zero rand (some m) (some w) =
      Except.error InitError.nameErrorWarnUndefined := rfl

end RecursiveNeuralNetwork

namespace RecurrentNeuralNetwork

/-- C5: on input sequences of common length T fed to a child model with
s state streams (given s initial states), RecurrentNeuralNetwork.apply
returns one history of exactly T values per state stream, where the
value at step t is the model applied to the step-t inputs followed by
the step t-1 states (the initial states when t = 0); the initial state
is not part of the emitted history (entry 0 is already a model output). -/
theorem rnn_history_recurrence (model : List α → List α) (d : α) (h0 : List α)
    (inputs : List (List α)) (T s : Nat)
    (hm : inputs ≠ []) (hT : ∀ q ∈ inputs, q.length = T)
    (hs : h0.length = s) (hout : ∀ args, (model args).length = s) :
    (apply model d h0 inputs).length = s ∧
    (∀ j, j < s → ((apply model d h0 inputs).getD j []).length = T) ∧
    (∀ j, j < s → ∀ t, t < T →
      ((apply model d h0 inputs).getD j []).getD t d =
        (model ((inputs.map fun q => q.getD t d) ++
          (if t = 0 then h0
           else (apply model d h0 inputs).map fun q => q.getD (t - 1) d))).getD j d) :=
  apply_histories model d h0 inputs T s hm hT hs hout

/-- Witness for C5: one input sequence of length 3, one state stream,
a summing cell starting from state 0. -/
theorem rnn_history_recurrence_witness :
    (([[1, 2, 3]] : List (List Nat)) ≠ []) ∧
    (∀ q ∈ ([[1, 2, 3]] : List (List Nat)), q.length = 3) ∧
    (([0] : List Nat).length = 1) ∧
    (∀ args : List Nat, ((fun l => [l.sum]) args : List Nat).length = 1) ∧
    ((apply (fun l => [l.sum]) 0 [0] [[1, 2, 3]]).length = 1 ∧
     (∀ j, j < 1 → ((apply (fun l => [l.sum]) 0 [0] [[1, 2, 3]]).getD j []).length = 3) ∧
     (∀ j, j < 1 → ∀ t, t < 3 →
       ((apply (fun l => [l.sum]) 0 [0] [[1, 2, 3]]).getD j []).getD t 0 =
         ((fun l => [l.sum])
           ((([[1, 2, 3]] : List (List Nat)).map fun q => q.getD t 0) ++
            (if t = 0 then ([0] : List Nat)
             else (apply (fun l => [l.sum]) 0 [0] [[1, 2, 3]]).map fun q =>
               q.getD (t - 1) 0)) : List Nat).getD j 0)) :=
  ⟨by decide, by decide, rfl, fun _ => rfl,
   rnn_history_recurrence (fun l => [l.sum]) 0 [0] [[1, 2, 3]] 3 1
     (by decide) (by decide) rfl (fun _ => rfl)⟩

/-- C6: when every input sequence has length 0, the sequence recurrence
engine returns an empty history for every state stream, and the child
model is never invoked: the result is the same model-free constant
(one empty history per initial state) for every model, so no model
output can influence it. -/
theorem rnn_empty_sequences (model : List α → List α) (d : α) (h0 : List α)
    (inputs : List (List α)) (hT : ∀ q ∈ inputs, q.length = 0) :
    apply model d h0 inputs = List.replicate h0.length [] := by
  have hN : (inputs.map List.length).foldr Nat.min (inputs.headD []).length = 0 := by
    refine foldr_min_const 0 _ _ ?_ ?_
    · intro v hv
      obtain ⟨q, hq, rfl⟩ := List.mem_map.mp hv
      exact hT q hq
    · cases inputs with
      | nil => rfl
      | cons a t => exact hT a (List.mem_cons_self a t)
  simp only [apply, hN]
  simp [scan_steps]

/-- Witness for C6: one empty input sequence, one state stream; the
history is the single empty list whatever the model is. -/
theorem rnn_empty_sequences_witness :
    (∀ q ∈ ([[]] : List (List Nat)), q.length = 0) ∧
    apply (fun l => [l.sum]) 0 [9] ([[]] : List (List Nat)) =
      List.replicate 1 [] :=
  ⟨by decide, rnn_empty_sequences (fun l => [l.sum]) 0 [9] [[]] (by decide)⟩

/-- C7: constructing the sequence recurrence engine with a custom child
model but no h0 option fails in init_params with the ValueError of lines
675-677 (the condition the specification names MissingInitialState),
whatever the size options are; no parameters are produced on this path,
so the engine never reaches evaluation. -/
theorem rnn_missing_h0_raises (zero : α) (rand : Nat → Nat → Tensor α)
    (m : NNModel α) (insize outsize : Option Nat) :
    init_params zero rand (some m) none insize outsize =
      Except.error InitError.missingInitialState := rfl

/-- C8: constructing the sequence recurrence engine with only insize and
outsize and no explicit child model succeeds and produces a single-state
recurrence: the stored model is the default SimpleRecurrence(insize,
outsize) cell, and exactly one initial state is prepended to its
parameters, a zero-filled tensor of length outsize. -/
theorem rnn_default_fallback (zero : α) (rand : Nat → Nat → Tensor α) (i o : Nat) :
    init_params zero rand none none (some i) (some o) =
      Except.ok (Tensor.vec (List.replicate o zero) ::
          SimpleRecurrence.init_params zero rand i o none none none,
        StoredModel.simpleRecurrence i o
          (SimpleRecurrence.init_params zero rand i o none none none)) := rfl

/-- C9: on every construction path that succeeds, the parameter list
returned by init_params is the initial-state tensors prepended to the
stored child model's parameters (h0 + model.params, line 693): a single
supplied tensor is wrapped as one state, a supplied list contributes one
state per element, and the default fallback contributes exactly one
state ahead of the SimpleRecurrence parameters.  The initial state is
thereby exposed to callers as leading trainable parameters of the
engine. -/
theorem rnn_params_h0_prepended (zero : α) (rand : Nat → Nat → Tensor α)
    (m : NNModel α) (t : Tensor α) (ts : List (Tensor α))
    (insize outsize : Option Nat) (h0opt : Option (H0Value α)) (i o : Nat) :
    (init_params zero rand (some m) (some (H0Value.arr t)) insize outsize =
      Except.ok ([t] ++ m.params, StoredModel.given m)) ∧
    (init_params zero rand (some m) (some (H0Value.list ts)) insize outsize =
      Except.ok (ts ++ m.params, StoredModel.given m)) ∧
    (∃ h0v : Tensor α,
      init_params zero rand none h0opt (some i) (some o) =
        Except.ok ([h0v] ++
            (StoredModel.simpleRecurrence i o
              (SimpleRecurrence.init_params zero rand i o none none none)).params,
          StoredModel.simpleRecurrence i o
            (SimpleRecurrence.init_params zero rand i o none none none))) := by
  refine ⟨rfl, rfl, ?_⟩
  cases h0opt with
  | none => exact ⟨_, rfl⟩
  | some hv =>
      cases hv with
      | arr t2 => exact ⟨_, rfl⟩
      | list ts2 => exact ⟨_, rfl⟩

end RecurrentNeuralNetwork

end NNB
